import Mathlib

/-!
Shallow embedding of the transfer-format codec of `phantomcli/image.py`
(class `PhantomImage`), together with theorems settling the frozen claims
about its specification.

Modelling conventions:
* a numpy 2-D array of pixel samples is a `List (List Nat)` (row-major);
* a byte string is a `List Nat` whose members are intended to be `< 256`;
* a Python function that can raise (`struct.error`, `KeyError`,
  `ValueError` from `reshape`, `ZeroDivisionError`) returns an `Option`;
* machine integers are `Nat` with explicit masks/bounds where the source
  packs bits (`struct.pack` range-checks its argument and raises on
  overflow, it never truncates).

The in-place rescaling helper `downscale` is not embedded: its behaviour
rests on numpy's dtype-dependent in-place casting rules and IEEE
floating-point division, which an exact-arithmetic value-level embedding
cannot state faithfully.
-/

namespace PhantomCli

/-- In-memory image: the sample grid (row-major) and the resolution that
`PhantomImage.__init__` records from the array's shape. -/
structure PhantomImage where
  array : List (List Nat)
  resolution : Nat × Nat
deriving DecidableEq, Repr

/-- Row-major flattening of the sample grid; this is the order in which
`np.nditer(self.array, order=C)` visits the samples. -/
def PhantomImage.samples (img : PhantomImage) : List Nat :=
  img.array.flatten

/-- Split a flat list into `r` consecutive rows of length `c`; this is what
`array.reshape((r, c))` produces when the length matches. -/
def rows : Nat → Nat → List Nat → List (List Nat)
  | 0, _, _ => []
  | r + 1, c, xs => xs.take c :: rows r c (xs.drop c)

/-- Embedding of `np.array(pixels).reshape(resolution)` followed by the
`PhantomImage` constructor: succeeds exactly when the element count matches
the requested shape, and the constructed image records that shape as its
resolution.  A mismatch raises `ValueError` in numpy, modelled as `none`. -/
def reshape (xs : List Nat) (res : Nat × Nat) : Option PhantomImage :=
  if xs.length = res.1 * res.2 then some ⟨rows res.1 res.2 xs, res⟩ else none

/-- Embedding of `struct.pack('>B', x)`: one big-endian unsigned byte;
raises `struct.error` (here `none`) unless `0 <= x <= 255`. -/
def packB (x : Nat) : Option (List Nat) :=
  if x < 256 then some [x] else none

/-- Embedding of `struct.pack('<H', x)`: two little-endian bytes; raises
(here `none`) unless `0 <= x <= 65535`. -/
def packH (x : Nat) : Option (List Nat) :=
  if x < 65536 then some [x % 256, x / 256] else none

/-- Big-endian 4-byte rendering of a 32-bit word. -/
def be4 (w : Nat) : List Nat :=
  [w >>> 24 &&& 255, w >>> 16 &&& 255, w >>> 8 &&& 255, w &&& 255]

/-- Embedding of `struct.pack('!L', x)`: four big-endian bytes; raises
(here `none`) unless `0 <= x < 2^32`. -/
def packL (x : Nat) : Option (List Nat) :=
  if x < 2 ^ 32 then some (be4 x) else none

/-- The per-sample packing loop shared by `p16` and `p8`: pack each sample,
collect the byte chunks in `byte_buffer`, join them; a packing failure
aborts the whole encode with nothing returned. -/
def packList (pack : Nat → Option (List Nat)) : List Nat → Option (List Nat)
  | [] => some []
  | x :: t =>
    match pack x, packList pack t with
    | some b, some rest => some (b ++ rest)
    | _, _ => none

/-- Embedding of `PhantomImage.p16`: two little-endian bytes per sample in
row-major order. -/
def p16 (img : PhantomImage) : Option (List Nat) :=
  packList packH img.samples

/-- Embedding of `PhantomImage.p8`: one byte per sample in row-major
order. -/
def p8 (img : PhantomImage) : Option (List Nat) :=
  packList packB img.samples

/-- The row-major sample stream cut into consecutive groups of up to 3,
mirroring `for i in range(0, len(values), 3): temp = values[i:i+3]`. -/
def groups3 : List Nat → List (List Nat)
  | [] => []
  | [a] => [[a]]
  | [a, b] => [[a, b]]
  | a :: b :: c :: t => [a, b, c] :: groups3 t

/-- The accumulator `p10` builds for one group: starting from 0, for each
sample `value` in order run `final_value |= value; final_value <<= 10`,
then `final_value >>= 10; final_value <<= 2`. -/
def p10word (g : List Nat) : Nat :=
  ((g.foldl (fun acc v => (acc ||| v) <<< 10) 0) >>> 10) <<< 2

/-- The group loop of `p10`: pack each group's word with `struct.pack('!L', …)`
and join the 4-byte chunks; a packing failure aborts the encode. -/
def packGroups : List (List Nat) → Option (List Nat)
  | [] => some []
  | g :: t =>
    match packL (p10word g), packGroups t with
    | some b, some rest => some (b ++ rest)
    | _, _ => none

/-- Embedding of `PhantomImage.p10`. -/
def p10 (img : PhantomImage) : Option (List Nat) :=
  packGroups (groups3 img.samples)

/-- Slice `xs` into pieces `xs[i:i+k]` for `i = 0, k, 2k, …` — the final
piece may be shorter than `k`.  Structural recursion on an explicit fuel so
that the definition also evaluates by `decide`/`rfl`. -/
def chunksOf (k : Nat) : Nat → List Nat → List (List Nat)
  | _, [] => []
  | 0, _ :: _ => []
  | fuel + 1, x :: xs => (x :: xs).take k :: chunksOf k fuel ((x :: xs).drop k)

/-- All slices `bs[i:i+k]` of a byte string, as taken by the decode loops
(`range(0, len(raw_bytes), 2)` for P16, the `while` loop for P10). -/
def chunks (k : Nat) (bs : List Nat) : List (List Nat) :=
  chunksOf k bs.length bs

/-- Embedding of `struct.unpack('<H', b)`: requires exactly two bytes
(a short final slice raises `struct.error`, modelled as `none`) and reads
them little-endian. -/
def unpackH : List Nat → Option Nat
  | [a, b] => some (a + 256 * b)
  | _ => none

/-- The unpack loop of `from_p16`: unpack every 2-byte slice, collecting
the pixel values; a short final slice aborts the decode. -/
def unpackList : List (List Nat) → Option (List Nat)
  | [] => some []
  | c :: t =>
    match unpackH c, unpackList t with
    | some v, some rest => some (v :: rest)
    | _, _ => none

/-- Embedding of `PhantomImage.from_p16`. -/
def from_p16 (bs : List Nat) (res : Nat × Nat) : Option PhantomImage :=
  (unpackList (chunks 2 bs)).bind fun pixels => reshape pixels res

/-- Embedding of `PhantomImage.from_p8`: every byte is one pixel value,
then reshape. -/
def from_p8 (bs : List Nat) (res : Nat × Nat) : Option PhantomImage :=
  reshape bs res

/-- Embedding of `int.from_bytes(_bytes, 'big')`. -/
def beVal (bs : List Nat) : Nat :=
  bs.foldl (fun acc b => acc * 256 + b) 0

/-- The extraction loop of `from_p10`: `n` times, record `value & 0b1111111111`
and then shift `value` right by 10.  The recorded fields are in
least-significant-first order. -/
def extractLoop : Nat → Nat → List Nat
  | _, 0 => []
  | v, n + 1 => (v &&& 1023) :: extractLoop (v >>> 10) n

/-- Embedding of `PhantomImage.from_p10`: cut the input into 20-byte slices
(the trailing slice may be shorter), read each slice as a big-endian
integer, extract sixteen 10-bit fields least-significant first, append them
reversed, and finally reshape. -/
def from_p10 (bs : List Nat) (res : Nat × Nat) : Option PhantomImage :=
  reshape ((chunks 20 bs).flatMap fun c => (extractLoop (beVal c) 16).reverse) res

/-- A format token: Python dict keys of the two dispatch tables are either
ints (legacy numeric codes) or strings. -/
inductive Fmt where
  | num : Int → Fmt
  | str : String → Fmt
deriving DecidableEq, Repr

/-- The three codec strategies. -/
inductive Codec where
  | P8 | P16 | P10
deriving DecidableEq, Repr

/-- The `_methods` dict of `to_transfer_format`, keyed by token; `none`
models the `KeyError` raised on an absent key. -/
def encodeLookup : Fmt → Option Codec
  | .num 272 => some .P16
  | .num (-272) => some .P16
  | .num 8 => some .P8
  | .num (-8) => some .P8
  | .num 266 => some .P10
  | .str "P16" => some .P16
  | .str "P16R" => some .P16
  | .str "P8" => some .P8
  | .str "P8R" => some .P8
  | .str "P10" => some .P10
  | _ => none

/-- The `_methods` dict of `from_transfer_format`: string tokens only. -/
def decodeLookup : Fmt → Option Codec
  | .str "P16" => some .P16
  | .str "P16R" => some .P16
  | .str "P8" => some .P8
  | .str "P8R" => some .P8
  | .str "P10" => some .P10
  | _ => none

/-- Dispatch a codec tag to its encoder. -/
def encCodec : Codec → PhantomImage → Option (List Nat)
  | .P8 => p8
  | .P16 => p16
  | .P10 => p10

/-- Dispatch a codec tag to its decoder. -/
def decCodec : Codec → List Nat → Nat × Nat → Option PhantomImage
  | .P8 => from_p8
  | .P16 => from_p16
  | .P10 => from_p10

/-- Embedding of `PhantomImage.to_transfer_format`. -/
def to_transfer_format (img : PhantomImage) (fmt : Fmt) : Option (List Nat) :=
  (encodeLookup fmt).bind fun c => encCodec c img

/-- Embedding of `PhantomImage.from_transfer_format`: look the token up,
swap the resolution components, dispatch. -/
def from_transfer_format (fmt : Fmt) (bs : List Nat) (res : Nat × Nat) :
    Option PhantomImage :=
  (decodeLookup fmt).bind fun c => decCodec c bs (res.2, res.1)

/-! Claim-side definitions, written from the spec's words, to be compared
with the embeddings above. -/

/-- Spec-side value of one encoded P10 group read as a base-1024 numeral:
the claim's accumulator `((…(v1<<10|v2)<<10|…)|vk)<<2` should equal this
numeral shifted left by the 2 padding bits. -/
def pack1024 (g : List Nat) : Nat :=
  g.foldl (fun a v => a * 1024 + v) 0

/-- Spec-side P10 decoding of a byte string: per 20-byte chunk, sixteen
10-bit fields of the big-endian chunk value, most-significant field
first. -/
def p10DecodedSpec (bs : List Nat) : List Nat :=
  (chunks 20 bs).flatMap fun c =>
    (List.range 16).map fun j => (beVal c >>> (10 * (15 - j))) &&& 1023

/-! Helper lemmas about the P10 encode accumulator. -/

theorem shiftLeft_lor_eq_add (m v k : Nat) (h : v < 2 ^ k) :
    (m <<< k) ||| v = m <<< k + v := by
  rw [Nat.shiftLeft_eq, Nat.mul_comm]
  exact (Nat.mul_add_lt_is_or h m).symm

theorem foldl_orShift_eq (g : List Nat) :
    ∀ m, (∀ x ∈ g, x < 1024) →
      g.foldl (fun acc v => (acc ||| v) <<< 10) (m <<< 10) =
        (g.foldl (fun a v => a * 1024 + v) m) <<< 10 := by
  induction g with
  | nil => intro m _; rfl
  | cons v t ih =>
    intro m h
    have hv : v < 1024 := h v (List.mem_cons_self v t)
    have ht : ∀ x ∈ t, x < 1024 := fun x hx => h x (List.mem_cons_of_mem v hx)
    simp only [List.foldl_cons]
    rw [shiftLeft_lor_eq_add m v 10 hv]
    have hmv : m <<< 10 + v = m * 1024 + v := by
      rw [Nat.shiftLeft_eq]
    rw [hmv]
    exact ih (m * 1024 + v) ht

theorem p10word_eq_pack1024 (g : List Nat) (h : ∀ x ∈ g, x < 1024) :
    p10word g = pack1024 g * 4 := by
  unfold p10word pack1024
  have h0 : (0 : Nat) = 0 <<< 10 := rfl
  rw [h0, foldl_orShift_eq g 0 h]
  rw [Nat.shiftLeft_eq, Nat.shiftRight_eq_div_pow, Nat.shiftLeft_eq]
  rw [Nat.mul_div_cancel _ (by norm_num : 0 < 2 ^ 10)]
  norm_num

theorem foldl_1024_lt (g : List Nat) :
    ∀ m, (∀ x ∈ g, x < 1024) →
      g.foldl (fun a v => a * 1024 + v) m < (m + 1) * 1024 ^ g.length := by
  induction g with
  | nil => intro m _; simp
  | cons v t ih =>
    intro m h
    have hv : v < 1024 := h v (List.mem_cons_self v t)
    have ht : ∀ x ∈ t, x < 1024 := fun x hx => h x (List.mem_cons_of_mem v hx)
    simp only [List.foldl_cons, List.length_cons]
    calc t.foldl (fun a v => a * 1024 + v) (m * 1024 + v)
        < (m * 1024 + v + 1) * 1024 ^ t.length := ih (m * 1024 + v) ht
      _ ≤ ((m + 1) * 1024) * 1024 ^ t.length := by
          apply Nat.mul_le_mul_right
          omega
      _ = (m + 1) * 1024 ^ (t.length + 1) := by ring

theorem groups3_facts (xs : List Nat) :
    ∀ g ∈ groups3 xs, g.length ≤ 3 ∧ ∀ x ∈ g, x ∈ xs := by
  induction xs using groups3.induct with
  | case1 => intro g hg; simp [groups3] at hg
  | case2 a =>
    intro g hg
    simp only [groups3, List.mem_singleton] at hg
    subst hg
    exact ⟨by simp, by intro x hx; exact hx⟩
  | case3 a b =>
    intro g hg
    simp only [groups3, List.mem_singleton] at hg
    subst hg
    exact ⟨by simp, by intro x hx; exact hx⟩
  | case4 a b c t ih =>
    intro g hg
    simp only [groups3, List.mem_cons] at hg
    rcases hg with hg | hg
    · subst hg
      refine ⟨by simp, ?_⟩
      intro x hx
      simp only [List.mem_cons] at hx ⊢
      tauto
    · rcases ih g hg with ⟨h1, h2⟩
      refine ⟨h1, fun x hx => ?_⟩
      have := h2 x hx
      simp only [List.mem_cons]
      tauto

theorem packGroups_eq (gs : List (List Nat)) (h : ∀ g ∈ gs, p10word g < 2 ^ 32) :
    packGroups gs = some ((gs.map fun g => be4 (p10word g)).flatten) := by
  induction gs with
  | nil => rfl
  | cons g t ih =>
    have hg : p10word g < 2 ^ 32 := h g (List.mem_cons_self g t)
    have ht : ∀ x ∈ t, p10word x < 2 ^ 32 := fun x hx => h x (List.mem_cons_of_mem g hx)
    simp only [packGroups, packL, if_pos hg, ih ht, List.map_cons, List.flatten_cons]

/-- Claim C1: on a grid of 10-bit samples, P10 encoding walks the samples
row-major in groups of up to 3 and emits per group the 4 big-endian bytes
of the or-shift accumulator, which equals the group read as a base-1024
numeral shifted left by the 2 padding bits; in particular the samples
`[1,2,3]` encode to the single word `((((1<<10)|2)<<10)|3)<<2`. -/
theorem p10_encodes_groups_of_three (img : PhantomImage)
    (h : ∀ x ∈ img.samples, x < 1024) :
    p10 img = some (((groups3 img.samples).map fun g => be4 (pack1024 g * 4)).flatten) ∧
    p10 ⟨[[1, 2, 3]], (1, 3)⟩ = some (be4 ((((1 <<< 10) ||| 2) <<< 10 ||| 3) <<< 2)) ∧
    p10 ⟨[[1, 2, 3]], (1, 3)⟩ = some [0, 64, 32, 12] := by
  refine ⟨?_, by decide, by decide⟩
  unfold p10
  have hword : ∀ g ∈ groups3 img.samples, p10word g < 2 ^ 32 := by
    intro g hg
    rcases groups3_facts img.samples g hg with ⟨hlen, hmem⟩
    have hx : ∀ x ∈ g, x < 1024 := fun x hx => h x (hmem x hx)
    rw [p10word_eq_pack1024 g hx]
    have h1 : pack1024 g < 1024 ^ g.length := by
      have := foldl_1024_lt g 0 hx
      simpa [pack1024] using this
    have h2 : (1024 : Nat) ^ g.length ≤ 1024 ^ 3 :=
      Nat.pow_le_pow_right (by norm_num) hlen
    have : pack1024 g < 1024 ^ 3 := lt_of_lt_of_le h1 h2
    norm_num at this ⊢
    omega
  rw [packGroups_eq _ hword]
  have hmap : List.map (fun g => be4 (p10word g)) (groups3 img.samples) =
      List.map (fun g => be4 (pack1024 g * 4)) (groups3 img.samples) := by
    apply List.map_congr_left
    intro g hg
    rcases groups3_facts img.samples g hg with ⟨_, hmem⟩
    rw [p10word_eq_pack1024 g (fun x hx => h x (hmem x hx))]
  rw [hmap]

/-- Witness for C1 at a concrete 2x2-and-a-tail grid. -/
theorem p10_encodes_groups_of_three_witness :
    p10 ⟨[[5, 600, 1023], [7]], (2, 3)⟩ =
      some (((groups3 (PhantomImage.samples ⟨[[5, 600, 1023], [7]], (2, 3)⟩)).map
        fun g => be4 (pack1024 g * 4)).flatten) :=
  (p10_encodes_groups_of_three ⟨[[5, 600, 1023], [7]], (2, 3)⟩ (by decide)).1

/-! Helper lemmas about the P10 decode loop. -/

theorem extractLoop_eq (n : Nat) :
    ∀ v, extractLoop v n = (List.range n).map fun i => (v >>> (10 * i)) &&& 1023 := by
  induction n with
  | zero => intro v; rfl
  | succ n ih =>
    intro v
    rw [List.range_succ_eq_map, List.map_cons, List.map_map]
    show (v &&& 1023) :: extractLoop (v >>> 10) n = (v >>> (10 * 0) &&& 1023) :: _
    rw [ih (v >>> 10)]
    congr 1
    apply List.map_congr_left
    intro i _
    show (v >>> 10) >>> (10 * i) &&& 1023 = v >>> (10 * (i + 1)) &&& 1023
    rw [← Nat.shiftRight_add]
    congr 2
    ring

theorem extractLoop_length (n : Nat) : ∀ v, (extractLoop v n).length = n := by
  induction n with
  | zero => intro v; rfl
  | succ n ih => intro v; simp [extractLoop, ih]

theorem extract16_reverse (v : Nat) :
    (extractLoop v 16).reverse =
      (List.range 16).map fun j => (v >>> (10 * (15 - j))) &&& 1023 := by
  rw [extractLoop_eq 16 v]
  have h16 : List.range 16 = [0, 1, 2, 3, 4, 5, 6, 7, 8, 9, 10, 11, 12, 13, 14, 15] := rfl
  rw [h16]
  simp only [List.map_cons, List.map_nil, List.reverse_cons, List.reverse_nil]
  norm_num

theorem chunksOf_fuel_irrel (k : Nat) (hk : 0 < k) :
    ∀ f1, ∀ bs : List Nat, ∀ f2, bs.length ≤ f1 → bs.length ≤ f2 →
      chunksOf k f1 bs = chunksOf k f2 bs := by
  intro f1
  induction f1 with
  | zero =>
    intro bs f2 h1 _
    have : bs = [] := List.eq_nil_of_length_eq_zero (Nat.le_zero.mp h1)
    subst this
    cases f2 <;> rfl
  | succ f ih =>
    intro bs f2 h1 h2
    cases bs with
    | nil => cases f2 <;> rfl
    | cons x xs =>
      cases f2 with
      | zero => simp at h2
      | succ f2 =>
        show ((x :: xs).take k) :: chunksOf k f ((x :: xs).drop k) =
          ((x :: xs).take k) :: chunksOf k f2 ((x :: xs).drop k)
        congr 1
        apply ih
        · simp only [List.length_drop, List.length_cons] at *
          omega
        · simp only [List.length_drop, List.length_cons] at *
          omega

theorem chunks_cons (k : Nat) (hk : 0 < k) (bs : List Nat) (hbs : bs ≠ []) :
    chunks k bs = bs.take k :: chunks k (bs.drop k) := by
  cases bs with
  | nil => exact absurd rfl hbs
  | cons x xs =>
    show chunksOf k (xs.length + 1) (x :: xs) = _
    show ((x :: xs).take k) :: chunksOf k xs.length ((x :: xs).drop k) = _
    congr 1
    apply chunksOf_fuel_irrel k hk
    · simp only [List.length_drop, List.length_cons]
      omega
    · exact Nat.le_refl _

theorem chunks20_length : ∀ n, ∀ bs : List Nat, bs.length ≤ n →
    (chunks 20 bs).length = (bs.length + 19) / 20 := by
  intro n
  induction n with
  | zero =>
    intro bs h
    have : bs = [] := List.eq_nil_of_length_eq_zero (Nat.le_zero.mp h)
    subst this
    rfl
  | succ n ih =>
    intro bs h
    cases bs with
    | nil => rfl
    | cons x xs =>
      simp only [List.length_cons] at h
      rw [chunks_cons 20 (by norm_num) (x :: xs) (by simp)]
      rw [List.length_cons, ih ((x :: xs).drop 20)
        (by simp only [List.length_drop, List.length_cons]; omega)]
      simp only [List.length_drop, List.length_cons]
      omega

theorem from_p10_eq_spec (bs : List Nat) (res : Nat × Nat) :
    from_p10 bs res = reshape (p10DecodedSpec bs) res := by
  unfold from_p10 p10DecodedSpec
  have hfun : (fun c : List Nat => (extractLoop (beVal c) 16).reverse) =
      fun c => (List.range 16).map fun j => (beVal c >>> (10 * (15 - j))) &&& 1023 :=
    funext fun c => extract16_reverse (beVal c)
  rw [hfun]

theorem p10DecodedSpec_length (bs : List Nat) :
    (p10DecodedSpec bs).length = 16 * ((bs.length + 19) / 20) := by
  unfold p10DecodedSpec
  rw [← chunks20_length bs.length bs (Nat.le_refl _)]
  induction (chunks 20 bs) with
  | nil => rfl
  | cons c t ih =>
    simp only [List.flatMap_cons, List.length_append, ih, List.length_cons, List.length_map,
      List.length_range]
    ring

/-- Claim C2: on an input whose length is a multiple of 20 and a resolution
of matching area, P10 decode reads each 20-byte chunk as a big-endian
160-bit integer, peels sixteen 10-bit fields off the low end, reverses them
so the most-significant field comes first, and reshapes the result. -/
theorem from_p10_extracts_fields (bs : List Nat) (w h k : Nat)
    (hlen : bs.length = 20 * k) (hres : w * h = 16 * k) :
    from_p10 bs (w, h) = some ⟨rows w h (p10DecodedSpec bs), (w, h)⟩ := by
  rw [from_p10_eq_spec]
  unfold reshape
  rw [if_pos]
  rw [p10DecodedSpec_length, hlen]
  simp only
  omega

/-- Witness for C2 on one concrete 20-byte chunk at resolution 2x8. -/
theorem from_p10_extracts_fields_witness :
    from_p10 [1, 2, 3, 4, 5, 6, 7, 8, 9, 10, 11, 12, 13, 14, 15, 16, 17, 18, 19, 20] (2, 8) =
      some ⟨rows 2 8 (p10DecodedSpec
        [1, 2, 3, 4, 5, 6, 7, 8, 9, 10, 11, 12, 13, 14, 15, 16, 17, 18, 19, 20]), (2, 8)⟩ :=
  from_p10_extracts_fields _ 2 8 1 (by decide) (by decide)

/-- Counterexample to claim C5: a 2-byte input (length not a multiple of 20)
is not rejected by P10 decode — the short chunk still yields 16 samples and
the decode succeeds at a 4x4 resolution. -/
theorem from_p10_short_chunk_accepted :
    ([0, 0] : List Nat).length % 20 ≠ 0 ∧
    from_p10 [0, 0] (4, 4) =
      some ⟨[[0, 0, 0, 0], [0, 0, 0, 0], [0, 0, 0, 0], [0, 0, 0, 0]], (4, 4)⟩ := by
  constructor
  · decide
  · decide

/-- Claim C5 as amended: P10 decode fails exactly when sixteen samples per
(possibly short trailing) 20-byte chunk do not add up to `width * height`;
a length that is not a multiple of 20 is not itself rejected. -/
theorem from_p10_fails_iff_count_mismatch (bs : List Nat) (w h : Nat) :
    from_p10 bs (w, h) = none ↔ 16 * ((bs.length + 19) / 20) ≠ w * h := by
  rw [from_p10_eq_spec]
  unfold reshape
  rw [p10DecodedSpec_length]
  by_cases hc : 16 * ((bs.length + 19) / 20) = w * h
  · rw [if_pos (by simpa using hc)]
    simp [hc]
  · rw [if_neg (by simpa using hc)]
    simp [hc]

/-! Helper lemmas relating `rows` and `flatten`, for the P8 claims. -/

theorem flatten_length_of_rows (rs : List (List Nat)) (h : Nat)
    (hr : ∀ r ∈ rs, r.length = h) : rs.flatten.length = rs.length * h := by
  induction rs with
  | nil => simp
  | cons r t ih =>
    simp only [List.flatten_cons, List.length_append, List.length_cons]
    rw [hr r (List.mem_cons_self r t), ih fun x hx => hr x (List.mem_cons_of_mem r hx)]
    ring

theorem rows_flatten (rs : List (List Nat)) (h : Nat) :
    ∀ w, rs.length = w → (∀ r ∈ rs, r.length = h) → rows w h rs.flatten = rs := by
  induction rs with
  | nil =>
    intro w hw _
    subst hw
    rfl
  | cons r t ih =>
    intro w hw hr
    subst hw
    show rows (t.length + 1) h (r ++ t.flatten) = r :: t
    unfold rows
    rw [List.take_left' (hr r (List.mem_cons_self r t)),
      List.drop_left' (hr r (List.mem_cons_self r t)),
      ih t.length rfl fun x hx => hr x (List.mem_cons_of_mem r hx)]

theorem flatten_rows (h : Nat) :
    ∀ w, ∀ bs : List Nat, bs.length = w * h → (rows w h bs).flatten = bs := by
  intro w
  induction w with
  | zero =>
    intro bs hl
    have : bs = [] := List.eq_nil_of_length_eq_zero (by omega)
    subst this
    rfl
  | succ w ih =>
    intro bs hl
    have hl2 : bs.length = w * h + h := by rw [hl]; ring
    show (bs.take h :: rows w h (bs.drop h)).flatten = bs
    rw [List.flatten_cons, ih (bs.drop h) (by simp only [List.length_drop]; omega),
      List.take_append_drop]

theorem packB_id (bs : List Nat) (h : ∀ b ∈ bs, b < 256) :
    packList packB bs = some bs := by
  induction bs with
  | nil => rfl
  | cons b t ih =>
    have hb : b < 256 := h b (List.mem_cons_self b t)
    have ht := ih fun x hx => h x (List.mem_cons_of_mem b hx)
    simp only [packList, packB, if_pos hb, ht, List.cons_append, List.nil_append]

/-- Counterexample to claim C3: P8-encoding the 1x2 grid `[[0,1]]` and
P8-decoding the bytes while quoting the same resolution `(1,2)` does not
return the original image — the decode path swaps the resolution and
reshapes to `(2,1)`. -/
theorem p8_roundtrip_same_resolution_fails :
    (p8 ⟨[[0, 1]], (1, 2)⟩).bind (fun bs => from_transfer_format (.str "P8") bs (1, 2)) =
      some ⟨[[0], [1]], (2, 1)⟩ ∧
    (p8 ⟨[[0, 1]], (1, 2)⟩).bind (fun bs => from_transfer_format (.str "P8") bs (1, 2)) ≠
      some ⟨[[0, 1]], (1, 2)⟩ := by
  constructor
  · decide
  · decide

/-- Claim C3 as amended: the P8 round trip recovers the original grid when
the decoder is quoted the transposed resolution `(h,w)`, which the dispatch
layer swaps back to `(w,h)`. -/
theorem p8_roundtrip_swapped_resolution (w h : Nat) (rs : List (List Nat))
    (hw : rs.length = w) (hr : ∀ r ∈ rs, r.length = h)
    (hv : ∀ x ∈ rs.flatten, x < 256) :
    (p8 ⟨rs, (w, h)⟩).bind (fun bs => from_transfer_format (.str "P8") bs (h, w)) =
      some ⟨rs, (w, h)⟩ := by
  have henc : p8 ⟨rs, (w, h)⟩ = some rs.flatten := packB_id rs.flatten hv
  rw [henc]
  show from_p8 rs.flatten (w, h) = some ⟨rs, (w, h)⟩
  unfold from_p8 reshape
  have hlen : rs.flatten.length = w * h := by
    rw [flatten_length_of_rows rs h hr, hw]
  rw [if_pos (by simpa using hlen)]
  rw [rows_flatten rs h w hw hr]

/-- Witness for the amended C3 at the concrete non-square grid `[[0,1]]`. -/
theorem p8_roundtrip_swapped_resolution_witness :
    (p8 ⟨[[0, 1]], (1, 2)⟩).bind (fun bs => from_transfer_format (.str "P8") bs (2, 1)) =
      some ⟨[[0, 1]], (1, 2)⟩ :=
  p8_roundtrip_swapped_resolution 1 2 [[0, 1]] (by decide) (by decide) (by decide)

/-- Claim C9: at the codec level, P8 encode after P8 decode is the identity
on byte strings whose length matches the quoted resolution. -/
theorem p8_encode_after_decode (bs : List Nat) (r c : Nat)
    (hb : ∀ b ∈ bs, b < 256) (hl : bs.length = r * c) :
    (from_p8 bs (r, c)).bind p8 = some bs := by
  unfold from_p8 reshape
  rw [if_pos (by simpa using hl)]
  show p8 ⟨rows r c bs, (r, c)⟩ = some bs
  unfold p8
  show packList packB (rows r c bs).flatten = some bs
  rw [flatten_rows c r bs hl]
  exact packB_id bs hb

/-- Witness for C9 on four concrete bytes at resolution 2x2. -/
theorem p8_encode_after_decode_witness :
    (from_p8 [0, 255, 3, 4] (2, 2)).bind p8 = some [0, 255, 3, 4] :=
  p8_encode_after_decode [0, 255, 3, 4] 2 2 (by decide) (by decide)

/-! Helper lemma: a packing loop fails as soon as one sample fails to pack. -/

theorem packList_none (pack : Nat → Option (List Nat)) :
    ∀ bs : List Nat, (∃ x ∈ bs, pack x = none) → packList pack bs = none := by
  intro bs
  induction bs with
  | nil => rintro ⟨x, hx, _⟩; simp at hx
  | cons b t ih =>
    rintro ⟨x, hx, hpack⟩
    rcases List.mem_cons.mp hx with rfl | hxt
    · show (match pack x, packList pack t with
        | some b, some rest => some (b ++ rest)
        | _, _ => none) = none
      rw [hpack]
    · show (match pack b, packList pack t with
        | some b, some rest => some (b ++ rest)
        | _, _ => none) = none
      rw [ih ⟨x, hxt, hpack⟩]
      cases pack b <;> rfl

/-- Counterexample to claim C6: a P8 encode of a grid holding the
out-of-range sample 256 fails (struct.error) instead of succeeding with the
truncated byte 0. -/
theorem p8_out_of_range_rejected :
    p8 ⟨[[256]], (1, 1)⟩ = none ∧ p8 ⟨[[256]], (1, 1)⟩ ≠ some [0] := by
  constructor
  · decide
  · decide

/-- Claim C6 as amended: out-of-range samples are not truncated during bit
packing.  P8 and P16 encoding reject any grid holding a sample above the
format's range; P10 ORs the full sample value into the accumulator, so high
bits spill into neighbouring fields — encoding `[1024,0,0]` overflows the
32-bit group word and fails, while `[0,0,1024]` succeeds with the 1024
landing in the bits of the middle field rather than being reduced mod
2^10. -/
theorem encoders_reject_or_spill_out_of_range :
    (∀ img : PhantomImage, (∃ x ∈ img.samples, 256 ≤ x) → p8 img = none) ∧
    (∀ img : PhantomImage, (∃ x ∈ img.samples, 65536 ≤ x) → p16 img = none) ∧
    p10 ⟨[[1024, 0, 0]], (1, 3)⟩ = none ∧
    p10 ⟨[[0, 0, 1024]], (1, 3)⟩ = some [0, 0, 16, 0] := by
  refine ⟨?_, ?_, by decide, by decide⟩
  · rintro img ⟨x, hx, hge⟩
    exact packList_none packB img.samples ⟨x, hx, by simp [packB]; omega⟩
  · rintro img ⟨x, hx, hge⟩
    exact packList_none packH img.samples ⟨x, hx, by simp [packH]; omega⟩

/-- Claim C7: for each of the five tokens the decode dispatcher accepts, it
invokes the token's codec decoder with the two resolution components
swapped. -/
theorem decode_swaps_resolution :
    ∀ (bs : List Nat) (w h : Nat),
      from_transfer_format (.str "P8") bs (w, h) = from_p8 bs (h, w) ∧
      from_transfer_format (.str "P8R") bs (w, h) = from_p8 bs (h, w) ∧
      from_transfer_format (.str "P16") bs (w, h) = from_p16 bs (h, w) ∧
      from_transfer_format (.str "P16R") bs (w, h) = from_p16 bs (h, w) ∧
      from_transfer_format (.str "P10") bs (w, h) = from_p10 bs (h, w) :=
  fun bs w h => ⟨rfl, rfl, rfl, rfl, rfl⟩

/-- Counterexample to claim C4: the legacy numeric token 266 is accepted by
the encode table but absent from the decode table, so decoding with it
fails even though it belongs to the format table. -/
theorem decode_rejects_numeric_tokens :
    encodeLookup (.num 266) = some .P10 ∧
    decodeLookup (.num 266) = none ∧
    from_transfer_format (.num 266) [0, 0, 0, 0] (1, 1) = none := by
  refine ⟨rfl, rfl, rfl⟩

/-- Claim C4 as amended: the encode dispatcher accepts exactly the ten
tokens of its table and the decode dispatcher only the five string tokens
(the legacy numeric codes are rejected on decode); each accepted token maps
to its single codec. -/
theorem dispatch_tables_exact :
    (∀ f : Fmt, (encodeLookup f).isSome ↔
      f ∈ ([.num 272, .num (-272), .num 8, .num (-8), .num 266,
            .str "P16", .str "P16R", .str "P8", .str "P8R", .str "P10"] : List Fmt)) ∧
    (∀ f : Fmt, (decodeLookup f).isSome ↔
      f ∈ ([.str "P16", .str "P16R", .str "P8", .str "P8R", .str "P10"] : List Fmt)) ∧
    encodeLookup (.num 272) = some .P16 ∧ encodeLookup (.num (-272)) = some .P16 ∧
    encodeLookup (.num 8) = some .P8 ∧ encodeLookup (.num (-8)) = some .P8 ∧
    encodeLookup (.num 266) = some .P10 ∧
    encodeLookup (.str "P16") = some .P16 ∧ encodeLookup (.str "P16R") = some .P16 ∧
    encodeLookup (.str "P8") = some .P8 ∧ encodeLookup (.str "P8R") = some .P8 ∧
    encodeLookup (.str "P10") = some .P10 ∧
    decodeLookup (.str "P16") = some .P16 ∧ decodeLookup (.str "P16R") = some .P16 ∧
    decodeLookup (.str "P8") = some .P8 ∧ decodeLookup (.str "P8R") = some .P8 ∧
    decodeLookup (.str "P10") = some .P10 := by
  refine ⟨?_, ?_, rfl, rfl, rfl, rfl, rfl, rfl, rfl, rfl, rfl, rfl, rfl, rfl, rfl, rfl, rfl⟩
  · intro f
    unfold encodeLookup
    split <;> simp_all
  · intro f
    unfold decodeLookup
    split <;> simp_all

end PhantomCli
